import Mathlib

/-!
Verification development for the brightline-api document-conversion service
(src/convert.ts, src/server.ts).  The stateless core of each handler is
shallowly embedded: pure string/path manipulation and the plain-text layout
algorithm are translated directly; the external converters (wkhtmltopdf,
unrtf, mammoth, fflate, TextDecoder) are kept as explicit function
parameters, since the repository treats them as black boxes.
-/

namespace Brightline

/-! Section: Constants (src/convert.ts lines 8-10) -/

/-- Constant `MAX_FILE_BYTES = 50 * 1024 * 1024` (src/convert.ts line 10). -/
def MAX_FILE_BYTES : Nat := 50 * 1024 * 1024

/-! Section: Plain-text layout (txtToPdf_toPath, src/convert.ts lines 198-275)

Geometry: Letter page `[612, 792]`, `margin = 50`, `fontSize = 12`,
`lineHeight = 12 * 1.3 = 15.6`, `maxWidth = 612 - 2*50 = 512`.
Lengths are modelled in thousandths of a point so that every quantity the
code manipulates is an exact natural number (the float expressions in the
source stay far from every comparison boundary: the page-break test compares
`742 - 15.6k` with `65.6`, never closer than `5.6`pt).

`widthOfTextAtSize` for a pdf-lib standard font is the sum of the scaled
glyph advance widths of the string's code points, so it is modelled as an
arbitrary per-character width function `cw : Char → Nat` summed over the
string. -/

/-- Usable horizontal width: `pageSize[0] - margin * 2 = 512`pt, in
thousandths of a point (src/convert.ts line 210). -/
def usableWidth : Nat := (612 - 2 * 50) * 1000

/-- Rendered width of a string at 12pt: sum of per-character advance widths
(`font.widthOfTextAtSize`, additive over code points for a standard font). -/
def width (cw : Char → Nat) (l : List Char) : Nat := (l.map cw).sum

/-- JavaScript's `\\s` character class (used by `split(/\\s+/)`): space, tab,
LF, VT, FF, CR, NBSP, OGHAM SPACE MARK, U+2000-200A, LS, PS, NNBSP, MMSP,
IDEOGRAPHIC SPACE, BOM. -/
def isWS (c : Char) : Bool :=
  let n := c.toNat
  n = 0x20 || n = 0x09 || n = 0x0A || n = 0x0B || n = 0x0C || n = 0x0D ||
  n = 0xA0 || n = 0x1680 || (0x2000 ≤ n && n ≤ 0x200A) ||
  n = 0x2028 || n = 0x2029 || n = 0x202F || n = 0x205F || n = 0x3000 ||
  n = 0xFEFF

/-- Model of `text.replace(/\r\n/g, "\n")` (src/convert.ts line 212): global
left-to-right non-overlapping replacement of CRLF by LF. -/
def normalizeNewlines : List Char → List Char
  | [] => []
  | '\r' :: '\n' :: rest => '\n' :: normalizeNewlines rest
  | c :: rest => c :: normalizeNewlines rest

/-- Model of `text.split(/\s+/)` (src/convert.ts line 212): the (possibly empty)
maximal runs of non-whitespace characters, including the empty fragments
JavaScript's `split` produces at a leading or trailing whitespace run
(`"a ".split(/\s+/) = ["a", ""]`, `"".split(/\s+/) = [""]`). -/
def splitWS : List Char → List (List Char)
  | [] => [[]]
  | c :: rest =>
    if isWS c then
      match rest with
      | [] => [[], []]
      | d :: _ => if isWS d then splitWS rest else [] :: splitWS rest
    else
      (c :: (splitWS rest).headI) :: (splitWS rest).tail

/-- One iteration of the forced character-split loop for an over-wide word
(src/convert.ts lines 222-230).  The accumulator is the pair
(pushed chunks, current chunk). -/
def chunkStep (cw : Char → Nat) (acc : List (List Char) × List Char) (ch : Char) :
    List (List Char) × List Char :=
  let t2 := acc.2 ++ [ch]
  if width cw t2 ≤ usableWidth then (acc.1, t2)
  else ((acc.1 ++ if acc.2 = [] then [] else [acc.2]), [ch])

/-- The whole character-split loop over a word (src/convert.ts lines 222-230):
returns the pushed chunks and the final `chunk` that becomes `current`. -/
def chunksOf (cw : Char → Nat) (w : List Char) : List (List Char) × List Char :=
  w.foldl (chunkStep cw) ([], [])

/-- One iteration of the word-wrap loop (src/convert.ts lines 215-234).
State is the pair (`lines`, `current`); `current = ""` is the falsy case of
``current ? `${current} ${w}` : w``. -/
def stepWord (cw : Char → Nat) (st : List (List Char) × List Char) (w : List Char) :
    List (List Char) × List Char :=
  let trial := if st.2 = [] then w else st.2 ++ ' ' :: w
  if width cw trial ≤ usableWidth then (st.1, trial)
  else
    let L1 := st.1 ++ if st.2 = [] then [] else [st.2]
    if usableWidth < width cw w then
      let c := chunksOf cw w
      (L1 ++ c.1, c.2)
    else (L1, w)

/-- The laid-out lines of `txtToPdf_toPath` (src/convert.ts lines 212-235):
split the normalized text on whitespace, run the greedy wrap loop, then push
the trailing `current` if non-empty. -/
def layoutLines (cw : Char → Nat) (text : List Char) : List (List Char) :=
  let st := (splitWS (normalizeNewlines text)).foldl (stepWord cw) ([], [])
  st.1 ++ if st.2 = [] then [] else [st.2]

/-- The page-drawing loop (src/convert.ts lines 237-252), in tenths of a
point: `y` starts at `792 - 50 = 742`; before drawing a line, if
`y < margin + lineHeight = 65.6` a new page is added and `y` resets to `742`;
after drawing, `y` decreases by `lineHeight = 15.6`.  Only the number of
lines matters. -/
def pageLoop : Nat → Nat → Nat → Nat
  | 0, _, pages => pages
  | n + 1, y, pages =>
    if y < 656 then pageLoop n (7420 - 156) (pages + 1)
    else pageLoop n (y - 156) pages

/-- Number of pages of the PDF produced by `txtToPdf_toPath`: one initial
`pdf.addPage` (line 237) plus the overflow pages added by the loop (the
footer on line 257 adds no page). -/
def pageCount (cw : Char → Nat) (text : List Char) : Nat :=
  pageLoop (layoutLines cw text).length 7420 1

/-! Section: Width-bound invariants for the layout loop -/

theorem width_nil (cw : Char → Nat) : width cw [] = 0 := rfl

theorem width_append (cw : Char → Nat) (a b : List Char) :
    width cw (a ++ b) = width cw a + width cw b := by
  simp [width]

theorem width_singleton (cw : Char → Nat) (c : Char) : width cw [c] = cw c := by
  simp [width]

/-- Invariant of the wrap loop: every pushed line and the current line fit
within the usable width. -/
def FitSt (cw : Char → Nat) (st : List (List Char) × List Char) : Prop :=
  (∀ l ∈ st.1, width cw l ≤ usableWidth) ∧ width cw st.2 ≤ usableWidth

theorem chunkStep_fit (cw : Char → Nat) (hfont : ∀ ch, cw ch ≤ usableWidth)
    (acc : List (List Char) × List Char) (ch : Char) (h : FitSt cw acc) :
    FitSt cw (chunkStep cw acc ch) := by
  obtain ⟨h1, h2⟩ := h
  by_cases hw : width cw (acc.2 ++ [ch]) ≤ usableWidth
  · simp only [chunkStep, hw, if_true]
    exact ⟨h1, hw⟩
  · simp only [chunkStep, hw, if_false]
    refine ⟨?_, by simpa [width_singleton] using hfont ch⟩
    intro l hl
    rcases List.mem_append.1 hl with hm | hm
    · exact h1 l hm
    · by_cases hz : acc.2 = [] <;> simp [hz] at hm
      exact hm ▸ h2

theorem chunksOf_fit (cw : Char → Nat) (hfont : ∀ ch, cw ch ≤ usableWidth)
    (w : List Char) (acc : List (List Char) × List Char) (h : FitSt cw acc) :
    FitSt cw (w.foldl (chunkStep cw) acc) := by
  induction w generalizing acc with
  | nil => exact h
  | cons c w ih => exact ih _ (chunkStep_fit cw hfont acc c h)

theorem stepWord_fit (cw : Char → Nat) (hfont : ∀ ch, cw ch ≤ usableWidth)
    (st : List (List Char) × List Char) (w : List Char) (h : FitSt cw st) :
    FitSt cw (stepWord cw st w) := by
  obtain ⟨h1, h2⟩ := h
  by_cases hfit : width cw (if st.2 = [] then w else st.2 ++ ' ' :: w) ≤ usableWidth
  · simp only [stepWord, hfit, if_true]
    exact ⟨h1, hfit⟩
  · simp only [stepWord, hfit, if_false]
    have hL1 : ∀ l ∈ st.1 ++ (if st.2 = [] then [] else [st.2]),
        width cw l ≤ usableWidth := by
      intro l hl
      rcases List.mem_append.1 hl with hm | hm
      · exact h1 l hm
      · by_cases hz : st.2 = [] <;> simp [hz] at hm
        exact hm ▸ h2
    by_cases hwide : usableWidth < width cw w
    · simp only [hwide, if_true]
      have hc : FitSt cw (chunksOf cw w) :=
        chunksOf_fit cw hfont w ([], []) ⟨by simp, by simp [width_nil]⟩
      refine ⟨?_, hc.2⟩
      intro l hl
      rcases List.mem_append.1 hl with hm | hm
      · exact hL1 l hm
      · exact hc.1 l hm
    · simp only [hwide, if_false]
      exact ⟨hL1, Nat.le_of_not_lt hwide⟩

theorem foldWords_fit (cw : Char → Nat) (hfont : ∀ ch, cw ch ≤ usableWidth)
    (ws : List (List Char)) (st : List (List Char) × List Char) (h : FitSt cw st) :
    FitSt cw (ws.foldl (stepWord cw) st) := by
  induction ws generalizing st with
  | nil => exact h
  | cons w ws ih => exact ih _ (stepWord_fit cw hfont st w h)

/-- C1. For every input to the text adapter `txtToPdf_toPath`, every
laid-out line — including the fragments produced by the character-by-
character split of a word wider than the page — has rendered width at most
the usable width `612 - 2*50 = 512`pt, provided every single character's
advance width at 12pt is at most that usable width (which holds for every
glyph of the embedded Times Roman font, whose widest 12pt glyph is far
narrower than 512pt). -/
theorem txt_lines_within_width (cw : Char → Nat)
    (hfont : ∀ ch : Char, cw ch ≤ usableWidth) (text : List Char) :
    ∀ l ∈ layoutLines cw text, width cw l ≤ usableWidth := by
  intro l hl
  unfold layoutLines at hl
  have hst : FitSt cw ((splitWS (normalizeNewlines text)).foldl (stepWord cw) ([], [])) :=
    foldWords_fit cw hfont _ ([], []) ⟨by simp, by simp [width_nil]⟩
  rcases List.mem_append.1 hl with hm | hm
  · exact hst.1 l hm
  · set st := (splitWS (normalizeNewlines text)).foldl (stepWord cw) ([], []) with hstdef
    by_cases hz : st.2 = [] <;> simp [hz] at hm
    exact hm ▸ hst.2

/-- Witness for `txt_lines_within_width` at a concrete width function and
concrete text containing a word wider than the page. -/
theorem txt_lines_within_width_witness :
    (∀ ch : Char, (fun _ : Char => 100000) ch ≤ usableWidth) ∧
      ∀ l ∈ layoutLines (fun _ => 100000) "ab cd abcdefgh".data,
        width (fun _ => 100000) l ≤ usableWidth :=
  ⟨fun _ => by norm_num [usableWidth],
    txt_lines_within_width (fun _ => 100000) (fun _ => by norm_num [usableWidth])
      "ab cd abcdefgh".data⟩

/-! Section: Line-count monotonicity (towards C7)

`finishCount` is the number of lines `layoutLines` would emit if the wrap
loop stopped in state `st` (the pushed lines plus the pending `current`). -/

/-- Indicator equal to 1 if the list is non-empty (the trailing `if (current) lines.push`). -/
def indNe (l : List Char) : Nat := if l = [] then 0 else 1

/-- Lines emitted when the wrap loop finishes in state `st`. -/
def finishCount (st : List (List Char) × List Char) : Nat :=
  st.1.length + indNe st.2

theorem indNe_le_one (l : List Char) : indNe l ≤ 1 := by
  unfold indNe; split <;> omega

theorem indNe_concat (l : List Char) (c : Char) : indNe (l ++ [c]) = 1 := by
  simp [indNe]

theorem layoutLines_eq_finishCount (cw : Char → Nat) (t : List Char) :
    (layoutLines cw t).length =
      finishCount ((splitWS (normalizeNewlines t)).foldl (stepWord cw) ([], [])) := by
  unfold layoutLines finishCount indNe
  split <;> simp_all

/-- The function `chunkStep` never leaves an empty current chunk. -/
theorem chunkStep_snd_ne (cw : Char → Nat) (acc : List (List Char) × List Char)
    (ch : Char) : (chunkStep cw acc ch).2 ≠ [] := by
  by_cases hw : width cw (acc.2 ++ [ch]) ≤ usableWidth <;>
    simp [chunkStep, hw]

/-- Number of line fragments an over-wide word contributes: the pushed
chunks plus the final pending chunk. -/
def ccount (cw : Char → Nat) (w : List Char) : Nat :=
  (chunksOf cw w).1.length + indNe (chunksOf cw w).2

theorem ccount_chunkStep_ge (cw : Char → Nat) (acc : List (List Char) × List Char)
    (ch : Char) :
    acc.1.length + indNe acc.2 ≤
      (chunkStep cw acc ch).1.length + indNe (chunkStep cw acc ch).2 := by
  have hne := chunkStep_snd_ne cw acc ch
  by_cases hw : width cw (acc.2 ++ [ch]) ≤ usableWidth
  · simp only [chunkStep, hw, if_true, indNe]
    split <;> split <;> simp_all
  · simp only [chunkStep, hw, if_false, indNe]
    by_cases hz : acc.2 = [] <;> simp [hz, List.length_append]

theorem chunksOf_snoc (cw : Char → Nat) (w : List Char) (c : Char) :
    chunksOf cw (w ++ [c]) = chunkStep cw (chunksOf cw w) c := by
  unfold chunksOf; rw [List.foldl_append]; rfl

theorem ccount_snoc_ge (cw : Char → Nat) (w : List Char) (c : Char) :
    ccount cw w ≤ ccount cw (w ++ [c]) := by
  unfold ccount; rw [chunksOf_snoc]; exact ccount_chunkStep_ge cw (chunksOf cw w) c

theorem ccount_pos (cw : Char → Nat) (w : List Char) (h : w ≠ []) :
    1 ≤ ccount cw w := by
  rcases List.eq_nil_or_concat w with rfl | ⟨u, c, rfl⟩
  · exact absurd rfl h
  · rw [List.concat_eq_append]
    unfold ccount
    rw [chunksOf_snoc]
    have := chunkStep_snd_ne cw (chunksOf cw u) c
    simp [indNe, this]

/-- Exact line count after one wrap-loop iteration, by branch. -/
theorem finish_stepWord_eq (cw : Char → Nat) (st : List (List Char) × List Char)
    (w : List Char) :
    finishCount (stepWord cw st w) =
      if width cw (if st.2 = [] then w else st.2 ++ ' ' :: w) ≤ usableWidth
      then st.1.length + indNe (if st.2 = [] then w else st.2 ++ ' ' :: w)
      else if usableWidth < width cw w then st.1.length + indNe st.2 + ccount cw w
      else st.1.length + indNe st.2 + indNe w := by
  by_cases hfit : width cw (if st.2 = [] then w else st.2 ++ ' ' :: w) ≤ usableWidth
  · simp [stepWord, hfit, finishCount]
  · by_cases hwide : usableWidth < width cw w
    · simp only [stepWord, hfit, if_false, hwide, if_true, finishCount, ccount,
        chunksOf, List.length_append]
      by_cases hz : st.2 = [] <;> simp [hz, indNe] <;> omega
    · simp only [stepWord, hfit, if_false, hwide, finishCount, List.length_append]
      by_cases hz : st.2 = [] <;> simp [hz, indNe]

/-- Processing one more word never decreases the final line count. -/
theorem finish_stepWord_ge (cw : Char → Nat) (st : List (List Char) × List Char)
    (w : List Char) : finishCount st ≤ finishCount (stepWord cw st w) := by
  rw [finish_stepWord_eq]
  have h2 : indNe st.2 ≤ indNe (if st.2 = [] then w else st.2 ++ ' ' :: w) := by
    by_cases hz : st.2 = [] <;> simp [hz, indNe]
  by_cases hfit : width cw (if st.2 = [] then w else st.2 ++ ' ' :: w) ≤ usableWidth
  · simp only [hfit, if_true, finishCount]
    omega
  · simp only [hfit, if_false, finishCount]
    by_cases hwide : usableWidth < width cw w <;>
      simp only [hwide, if_true, if_false] <;> omega

/-- Processing the empty word (an empty fragment from `split(/\s+/)`)
leaves the final line count unchanged. -/
theorem finish_stepWord_nil (cw : Char → Nat) (st : List (List Char) × List Char) :
    finishCount (stepWord cw st []) = finishCount st := by
  rw [finish_stepWord_eq]
  have hw0 : width cw ([] : List Char) = 0 := rfl
  by_cases hz : st.2 = []
  · simp [hz, hw0, finishCount, indNe]
  · by_cases hfit : width cw (st.2 ++ [' ']) ≤ usableWidth
    · simp [hz, hfit, finishCount, indNe]
    · have : ¬ usableWidth < width cw ([] : List Char) := by simp [hw0]
      simp [hz, hfit, this, finishCount, indNe]

/-- Extending the word being processed by one character never decreases the
final line count after that step. -/
theorem finish_stepWord_snoc (cw : Char → Nat) (st : List (List Char) × List Char)
    (w : List Char) (c : Char) :
    finishCount (stepWord cw st w) ≤ finishCount (stepWord cw st (w ++ [c])) := by
  rw [finish_stepWord_eq, finish_stepWord_eq]
  have htr : (if st.2 = [] then w ++ [c] else st.2 ++ ' ' :: (w ++ [c])) =
      (if st.2 = [] then w else st.2 ++ ' ' :: w) ++ [c] := by
    by_cases hz : st.2 = [] <;> simp [hz]
  rw [htr]
  set tr := if st.2 = [] then w else st.2 ++ ' ' :: w with htrdef
  have hwtr : width cw (tr ++ [c]) = width cw tr + cw c := by
    rw [width_append, width_singleton]
  have hww : width cw (w ++ [c]) = width cw w + cw c := by
    rw [width_append, width_singleton]
  have hcp : 1 ≤ ccount cw (w ++ [c]) := ccount_pos cw (w ++ [c]) (by simp)
  have hcs : ccount cw w ≤ ccount cw (w ++ [c]) := ccount_snoc_ge cw w c
  have hiw : indNe w ≤ 1 := indNe_le_one w
  have hitr : indNe tr ≤ 1 := indNe_le_one tr
  have hitrc : indNe (tr ++ [c]) = 1 := indNe_concat tr c
  have hiwc : indNe (w ++ [c]) = 1 := indNe_concat w c
  by_cases hfit' : width cw (tr ++ [c]) ≤ usableWidth
  · have hfit : width cw tr ≤ usableWidth := by omega
    simp only [hfit', if_true, hfit]
    omega
  · simp only [hfit', if_false]
    by_cases hfit : width cw tr ≤ usableWidth
    · simp only [hfit, if_true]
      split <;> omega
    · simp only [hfit, if_false]
      by_cases hwide : usableWidth < width cw w
      · have hwide' : usableWidth < width cw (w ++ [c]) := by omega
        simp only [hwide, hwide', if_true]
        omega
      · simp only [hwide, if_false]
        split <;> omega

/-- Folding further words never decreases the final line count. -/
theorem finish_foldl_ge (cw : Char → Nat) (ws : List (List Char))
    (st : List (List Char) × List Char) :
    finishCount st ≤ finishCount (ws.foldl (stepWord cw) st) := by
  induction ws generalizing st with
  | nil => exact Nat.le_refl _
  | cons w ws ih =>
    exact Nat.le_trans (finish_stepWord_ge cw st w) (ih (stepWord cw st w))

/-! Section: Structure of `splitWS` under appending characters -/

theorem splitWS_nil_eq : splitWS [] = [[]] := rfl

theorem splitWS_cons_nws (c : Char) (rest : List Char) (hc : isWS c = false) :
    splitWS (c :: rest) = (c :: (splitWS rest).headI) :: (splitWS rest).tail := by
  rw [splitWS.eq_def]
  simp [hc]

theorem splitWS_ws_nil (c : Char) (hc : isWS c = true) :
    splitWS [c] = [[], []] := by
  rw [splitWS.eq_def]
  simp [hc]

theorem splitWS_ws_ws (c d : Char) (r : List Char) (hc : isWS c = true)
    (hd : isWS d = true) : splitWS (c :: d :: r) = splitWS (d :: r) := by
  rw [splitWS.eq_def]
  simp [hc, hd]

theorem splitWS_ws_nws (c d : Char) (r : List Char) (hc : isWS c = true)
    (hd : isWS d = false) : splitWS (c :: d :: r) = [] :: splitWS (d :: r) := by
  rw [splitWS.eq_def]
  simp [hc, hd]

theorem splitWS_ne_nil (t : List Char) : splitWS t ≠ [] := by
  induction t with
  | nil => simp [splitWS_nil_eq]
  | cons c rest ih =>
    by_cases hc : isWS c
    · cases rest with
      | nil => simp [splitWS_ws_nil c hc]
      | cons d r =>
        by_cases hd : isWS d
        · rw [splitWS_ws_ws c d r hc hd]; exact ih
        · rw [splitWS_ws_nws c d r hc (by simpa using hd)]; simp
    · rw [splitWS_cons_nws c rest (by simpa using hc)]; simp

/-- Whether the last character of the text is whitespace. -/
def lastIsWS : List Char → Bool
  | [] => false
  | [d] => isWS d
  | _ :: d :: rest => lastIsWS (d :: rest)

/-- Appending a non-whitespace character extends the last fragment of the
whitespace split. -/
theorem splitWS_snoc_not_ws (t : List Char) (c : Char) (hc : isWS c = false) :
    ∃ init last, splitWS t = init ++ [last] ∧
      splitWS (t ++ [c]) = init ++ [last ++ [c]] := by
  induction t with
  | nil =>
    refine ⟨[], [], by simp [splitWS_nil_eq], ?_⟩
    simp [splitWS_cons_nws c [] hc, splitWS_nil_eq]
  | cons a rest ih =>
    obtain ⟨init, last, h1, h2⟩ := ih
    by_cases ha : isWS a
    · cases rest with
      | nil =>
        refine ⟨[[]], [], by simp [splitWS_ws_nil a ha], ?_⟩
        have hac : ([a] ++ [c] : List Char) = a :: c :: [] := rfl
        rw [hac, splitWS_ws_nws a c [] ha hc,
          splitWS_cons_nws c [] hc, splitWS_nil_eq]
        simp
      | cons d r =>
        have hrw : ((a :: d :: r) ++ [c] : List Char) = a :: d :: (r ++ [c]) := rfl
        have hrw2 : ((d :: r) ++ [c] : List Char) = d :: (r ++ [c]) := rfl
        by_cases hd : isWS d
        · refine ⟨init, last, ?_, ?_⟩
          · rw [splitWS_ws_ws a d r ha hd]; exact h1
          · rw [hrw, splitWS_ws_ws a d (r ++ [c]) ha hd, ← hrw2]; exact h2
        · refine ⟨[] :: init, last, ?_, ?_⟩
          · rw [splitWS_ws_nws a d r ha (by simpa using hd), h1]; rfl
          · rw [hrw, splitWS_ws_nws a d (r ++ [c]) ha (by simpa using hd),
              ← hrw2, h2]
            rfl
    · have ha' : isWS a = false := by simpa using ha
      cases init with
      | nil =>
        simp only [List.nil_append] at h1 h2
        refine ⟨[], a :: last, ?_, ?_⟩
        · rw [splitWS_cons_nws a rest ha', h1]; simp
        · have : ((a :: rest) ++ [c] : List Char) = a :: (rest ++ [c]) := rfl
          rw [this, splitWS_cons_nws a (rest ++ [c]) ha', h2]
          simp
      | cons h i =>
        refine ⟨(a :: h) :: i, last, ?_, ?_⟩
        · rw [splitWS_cons_nws a rest ha', h1]; simp
        · have : ((a :: rest) ++ [c] : List Char) = a :: (rest ++ [c]) := rfl
          rw [this, splitWS_cons_nws a (rest ++ [c]) ha', h2]
          simp

/-- Appending a whitespace character either leaves the split unchanged (the
text already ended in whitespace) or appends one empty fragment. -/
theorem splitWS_snoc_ws (t : List Char) (c : Char) (hc : isWS c = true) :
    splitWS (t ++ [c]) =
      if lastIsWS t then splitWS t else splitWS t ++ [[]] := by
  induction t with
  | nil => simp [splitWS_ws_nil c hc, splitWS_nil_eq, lastIsWS]
  | cons a rest ih =>
    cases rest with
    | nil =>
      have hrw : (([a] : List Char) ++ [c]) = a :: c :: [] := rfl
      by_cases ha : isWS a
      · rw [hrw, splitWS_ws_ws a c [] ha hc, splitWS_ws_nil c hc]
        simp [lastIsWS, ha, splitWS_ws_nil a ha]
      · have ha' : isWS a = false := by simpa using ha
        rw [hrw, splitWS_cons_nws a [c] ha', splitWS_ws_nil c hc,
          splitWS_cons_nws a [] ha', splitWS_nil_eq]
        simp [lastIsWS, ha']
    | cons d r =>
      have hlast : lastIsWS (a :: d :: r) = lastIsWS (d :: r) := rfl
      have hrw : ((a :: d :: r) ++ [c] : List Char) = a :: d :: (r ++ [c]) := rfl
      have hrw2 : ((d :: r) ++ [c] : List Char) = d :: (r ++ [c]) := rfl
      by_cases ha : isWS a
      · by_cases hd : isWS d
        · rw [hlast, hrw, splitWS_ws_ws a d (r ++ [c]) ha hd, ← hrw2, ih,
            splitWS_ws_ws a d r ha hd]
        · have hd' : isWS d = false := by simpa using hd
          rw [hlast, hrw, splitWS_ws_nws a d (r ++ [c]) ha hd', ← hrw2, ih,
            splitWS_ws_nws a d r ha hd']
          by_cases hl : lastIsWS (d :: r) <;> simp [hl]
      · have ha' : isWS a = false := by simpa using ha
        rw [hlast, hrw, splitWS_cons_nws a (d :: (r ++ [c])) ha', ← hrw2, ih,
          splitWS_cons_nws a (d :: r) ha']
        by_cases hl : lastIsWS (d :: r)
        · simp [hl]
        · simp only [hl, if_false]
          obtain ⟨x, xs, hx⟩ : ∃ x xs, splitWS (d :: r) = x :: xs := by
            cases hsp : splitWS (d :: r) with
            | nil => exact absurd hsp (splitWS_ne_nil _)
            | cons x xs => exact ⟨x, xs, rfl⟩
          simp [hx]

/-! Section: CRLF normalization does not change the whitespace split -/

/-- Whether the first character of the text is whitespace. -/
def headIsWS : List Char → Bool
  | [] => false
  | c :: _ => isWS c

theorem normalizeNewlines_cons (c : Char) (rest : List Char)
    (h : ∀ r2, c = '\x0d' → rest = '\n' :: r2 → False) :
    normalizeNewlines (c :: rest) = c :: normalizeNewlines rest := by
  rw [normalizeNewlines.eq_def]
  split
  · rename_i heq; exact absurd heq (by simp)
  · rename_i r2 heq
    simp at heq
    exact (h r2 heq.1 heq.2).elim
  · rename_i c2 r2 heq
    simp at heq
    rw [heq.1, heq.2]

theorem normalizeNewlines_eq_nil (r : List Char) :
    normalizeNewlines r = [] ↔ r = [] := by
  induction r using normalizeNewlines.induct with
  | case1 => simp [normalizeNewlines]
  | case2 rest ih => simp [normalizeNewlines]
  | case3 c rest h ih => simp [normalizeNewlines_cons c rest h]

theorem headIsWS_normalize (r : List Char) :
    headIsWS (normalizeNewlines r) = headIsWS r := by
  induction r using normalizeNewlines.induct with
  | case1 => rfl
  | case2 rest ih =>
    show headIsWS ('\n' :: normalizeNewlines rest) = headIsWS ('\x0d' :: '\n' :: rest)
    show isWS '\n' = isWS '\x0d'
    decide
  | case3 c rest h ih =>
    rw [normalizeNewlines_cons c rest h]
    rfl

/-- The whitespace-cons case of `splitWS`, phrased via `headIsWS`. -/
theorem splitWS_cons_ws (c : Char) (rest : List Char) (hc : isWS c = true) :
    splitWS (c :: rest) =
      if rest = [] then [[], []]
      else if headIsWS rest then splitWS rest else [] :: splitWS rest := by
  cases rest with
  | nil => simp [splitWS_ws_nil c hc]
  | cons d r =>
    by_cases hd : isWS d
    · simp [splitWS_ws_ws c d r hc hd, headIsWS, hd]
    · simp [splitWS_ws_nws c d r hc (by simpa using hd), headIsWS, hd]

/-- Replacing CRLF by LF only rewrites whitespace runs, so the whitespace
split — and hence the layout — is unchanged. -/
theorem splitWS_normalize (t : List Char) :
    splitWS (normalizeNewlines t) = splitWS t := by
  induction t using normalizeNewlines.induct with
  | case1 => rfl
  | case2 rest ih =>
    show splitWS ('\n' :: normalizeNewlines rest) = splitWS ('\x0d' :: '\n' :: rest)
    rw [splitWS_cons_ws '\n' (normalizeNewlines rest) (by decide),
      splitWS_ws_ws '\x0d' '\n' rest (by decide) (by decide),
      splitWS_cons_ws '\n' rest (by decide),
      ih, headIsWS_normalize rest]
    by_cases hz : rest = []
    · simp [hz, normalizeNewlines]
    · have hz' : ¬ normalizeNewlines rest = [] := by
        simpa [normalizeNewlines_eq_nil] using hz
      simp [hz, hz']
  | case3 c rest h ih =>
    rw [normalizeNewlines_cons c rest h]
    by_cases hc : isWS c
    · rw [splitWS_cons_ws c _ hc, splitWS_cons_ws c rest hc,
        ih, headIsWS_normalize rest]
      by_cases hz : rest = []
      · simp [hz, normalizeNewlines]
      · have hz' : ¬ normalizeNewlines rest = [] := by
          simpa [normalizeNewlines_eq_nil] using hz
        simp [hz, hz']
    · have hc' : isWS c = false := by simpa using hc
      rw [splitWS_cons_nws c _ hc', splitWS_cons_nws c rest hc', ih]

/-! Section: Monotonicity of the line count and of the page count -/

/-- Number of laid-out lines. -/
def lineCount (cw : Char → Nat) (t : List Char) : Nat :=
  (layoutLines cw t).length

theorem lineCount_eq (cw : Char → Nat) (t : List Char) :
    lineCount cw t = finishCount ((splitWS t).foldl (stepWord cw) ([], [])) := by
  rw [lineCount, layoutLines_eq_finishCount, splitWS_normalize]

theorem lineCount_snoc (cw : Char → Nat) (t : List Char) (c : Char) :
    lineCount cw t ≤ lineCount cw (t ++ [c]) := by
  rw [lineCount_eq, lineCount_eq]
  by_cases hc : isWS c
  · rw [splitWS_snoc_ws t c hc]
    by_cases hl : lastIsWS t
    · rw [if_pos hl]
    · rw [if_neg hl, List.foldl_append]
      simp only [List.foldl_cons, List.foldl_nil]
      rw [finish_stepWord_nil]
  · obtain ⟨init, last, h1, h2⟩ := splitWS_snoc_not_ws t c (by simpa using hc)
    rw [h1, h2, List.foldl_append, List.foldl_append]
    simp only [List.foldl_cons, List.foldl_nil]
    exact finish_stepWord_snoc cw _ last c

theorem lineCount_append (cw : Char → Nat) (t s : List Char) :
    lineCount cw t ≤ lineCount cw (t ++ s) := by
  induction s generalizing t with
  | nil => simp
  | cons c s ih =>
    have h2 := ih (t ++ [c])
    rw [List.append_assoc, List.singleton_append] at h2
    exact Nat.le_trans (lineCount_snoc cw t c) h2

theorem pageLoop_succ_ge (n : Nat) :
    ∀ y p, pageLoop n y p ≤ pageLoop (n + 1) y p := by
  induction n with
  | zero =>
    intro y p
    by_cases h : y < 656 <;> simp [pageLoop, h]
  | succ n ih =>
    intro y p
    by_cases h : y < 656 <;>
      simp only [pageLoop, h, if_true, if_false] <;> apply ih

theorem pageLoop_mono (n m y p : Nat) (h : n ≤ m) :
    pageLoop n y p ≤ pageLoop m y p := by
  induction m with
  | zero =>
    have : n = 0 := Nat.le_zero.1 h
    rw [this]
  | succ m ih =>
    rcases Nat.lt_or_ge n (m + 1) with hlt | hge
    · exact Nat.le_trans (ih (Nat.lt_succ_iff.1 hlt)) (pageLoop_succ_ge m y p)
    · rw [Nat.le_antisymm h hge]

/-- UTF-8 byte length of a scalar value (the size measured by the 50 MiB
ceiling on uploaded text). -/
def utf8Len (c : Char) : Nat :=
  if c.toNat < 0x80 then 1
  else if c.toNat < 0x800 then 2
  else if c.toNat < 0x10000 then 3
  else 4

/-- UTF-8 byte length of a text. -/
def utf8Length (l : List Char) : Nat := (l.map utf8Len).sum

/-- C7. For every plain-text input under the size ceiling, the page
count of the PDF produced by `txtToPdf_toPath` is monotone in input length:
extending the input text never yields fewer pages.  Holds for every
per-character width function, hence in particular for the embedded font. -/
theorem txt_pageCount_monotone (cw : Char → Nat) (t s : List Char)
    (hsize : utf8Length (t ++ s) ≤ MAX_FILE_BYTES) :
    pageCount cw t ≤ pageCount cw (t ++ s) := by
  have h := lineCount_append cw t s
  rw [lineCount, lineCount] at h
  exact pageLoop_mono _ _ 7420 1 h

/-- Witness for `txt_pageCount_monotone` at a concrete width function and
concrete texts. -/
theorem txt_pageCount_monotone_witness :
    utf8Length ("aa bb".data ++ " cc dd".data) ≤ MAX_FILE_BYTES ∧
      pageCount (fun _ => 100000) "aa bb".data ≤
        pageCount (fun _ => 100000) ("aa bb".data ++ " cc dd".data) :=
  ⟨by decide, txt_pageCount_monotone (fun _ => 100000) _ _ (by decide)⟩

/-! Section: Path and string utilities (Node `path`, JS string methods)

These model the library functions the server leans on: `path.basename`,
`path.extname`, `String.prototype.toLowerCase` (ASCII inputs only — every
string they are applied to here is an extension or MIME type),
`String.prototype.endsWith`, and the regex suffix tests. -/

theorem length_dropWhile_le (p : Char → Bool) (l : List Char) :
    (l.dropWhile p).length ≤ l.length := by
  induction l with
  | nil => simp
  | cons c r ih => by_cases h : p c <;> simp [List.dropWhile, h]; omega

/-- ASCII lowercasing of a string (`toLowerCase` on ASCII input). -/
def lowerS (s : String) : String := String.mk (s.data.map Char.toLower)

/-- Whether `l` ends with the suffix `suf`. -/
def endsWithL (l suf : List Char) : Bool :=
  Nat.ble suf.length l.length && l.drop (l.length - suf.length) == suf

/-- Trailing `/` separators, skipped by Node's `basename`/`extname`. -/
def stripTrailSlashes (l : List Char) : List Char :=
  (l.reverse.dropWhile (fun c => c = '/')).reverse

/-- The part of the path after the last `/` separator. -/
def afterLastSlash (l : List Char) : List Char :=
  (l.reverse.takeWhile (fun c => c ≠ '/')).reverse

/-- Node `path.basename`: last path segment, ignoring trailing slashes
(`basename("/") = ""`). -/
def basenameS (p : String) : String :=
  String.mk (afterLastSlash (stripTrailSlashes p.data))

/-- Node `path.extname` restricted to a basename (no separators): the suffix
from the last dot, except that a name with no dot, a name whose only dot is
its first character (dotfiles such as `".pdf"`), and the name `".."` have no
extension. -/
def extnameBase (b : List Char) : List Char :=
  let afterDot := b.reverse.takeWhile (fun c => c ≠ '.')
  if afterDot.length = b.length then []
  else if b.length - afterDot.length - 1 = 0 then []
  else if b = ['.', '.'] then []
  else b.drop (b.length - afterDot.length - 1)

/-- Node `path.extname`. -/
def extnameS (p : String) : String :=
  String.mk (extnameBase (afterLastSlash (stripTrailSlashes p.data)))

/-- JavaScript `\s`-trimming of a string (`String.prototype.trim`). -/
def trimWS (l : List Char) : List Char :=
  ((l.dropWhile (fun c => isWS c)).reverse.dropWhile (fun c => isWS c)).reverse

/-- Model of `guessExtFromContentType` (src/convert.ts lines 328-348) on a present
header value: `ct.split(";")[0].trim().toLowerCase()`, then the fixed MIME
table. -/
def guessExtFromContentType (ct : String) : Option String :=
  let t := String.mk ((trimWS (ct.data.takeWhile (fun c => c ≠ ';'))).map Char.toLower)
  if t = "application/pdf" then some ".pdf"
  else if t = "application/vnd.openxmlformats-officedocument.wordprocessingml.document"
    then some ".docx"
  else if t = "text/plain" then some ".txt"
  else if t = "text/html" then some ".html"
  else if t = "application/rtf" then some ".rtf"
  else if t = "application/zip" ∨ t = "application/x-zip-compressed" then some ".zip"
  else none

/-- The content-type side of each dispatch test in the `/convert/url`
handler: `contentType && guessExtFromContentType(contentType) === ...`.
An absent header contributes nothing; an empty header is JS-falsy and the
table also maps it to `null`, so `none` is returned either way. -/
def ctExt : Option String → Option String
  | none => none
  | some s => guessExtFromContentType s

/-! Section: The `/convert/url` handler (src/server.ts lines 268-410) -/

/-- The pipeline selected by the `/convert/url` dispatch chain. -/
inductive UrlTag
  | pdf
  | txt
  | docx
  | rtf
  | html
  | unsupported
deriving DecidableEq, Repr

/-- The dispatch if-chain of `app.post('/convert/url')` (src/server.ts lines
283-361): each branch tests the lowercased extension of the resolved
filename, or the content-type table entry.  The ZIP branch (lines 363-405)
is commented out in the source, so no branch matches a zip resource and the
chain falls through to the 415 response of line 407. -/
def urlDispatch (ext : String) (ct : Option String) : UrlTag :=
  if ext = ".pdf" ∨ ctExt ct = some ".pdf" then .pdf
  else if ext = ".txt" ∨ ctExt ct = some ".txt" then .txt
  else if ext = ".docx" ∨ ctExt ct = some ".docx" then .docx
  else if ext = ".rtf" ∨ ctExt ct = some ".rtf" then .rtf
  else if ext = ".html" ∨ ext = ".htm" ∨ ctExt ct = some ".html" then .html
  else .unsupported

/-- The external conversion pipelines reachable from `/convert/url`
(txtToPdf, mammoth/unrtf/wkhtmltopdf chains), abstracted as functions from
the downloaded bytes to the produced PDF bytes (`none` = tool failure). -/
structure UrlConvs where
  txt : List Nat → Option (List Nat)
  docx : List Nat → Option (List Nat)
  rtf : List Nat → Option (List Nat)
  html : List Nat → Option (List Nat)

/-- Body of `app.post('/convert/url')` after the download: the pdf branch
streams the downloaded temp file unchanged (line 288); the conversion
branches stream the adapter output; a fall-through is the 415 error; an
adapter failure becomes the 500 of the global error handler. -/
def urlHandler (K : UrlConvs) (fileBytes : List Nat) (ext : String)
    (ct : Option String) : Except Nat (List Nat) :=
  match urlDispatch ext ct with
  | .pdf => .ok fileBytes
  | .txt => match K.txt fileBytes with
    | some b => .ok b
    | none => .error 500
  | .docx => match K.docx fileBytes with
    | some b => .ok b
    | none => .error 500
  | .rtf => match K.rtf fileBytes with
    | some b => .ok b
    | none => .error 500
  | .html => match K.html fileBytes with
    | some b => .ok b
    | none => .error 500
  | .unsupported => .error 415

/-- Model of `const ext = (extname(filename) || "").toLowerCase()` (src/server.ts
line 281). -/
def serverUrlExt (filename : String) : String := lowerS (extnameS filename)

/-- The characters kept by the filename sanitizer's `\w` + dot + dash class
(src/convert.ts line 391). -/
def isWordDotDash (c : Char) : Bool :=
  ('a' ≤ c && c ≤ 'z') || ('A' ≤ c && c ≤ 'Z') || ('0' ≤ c && c ≤ '9') ||
  c = '_' || c = '.' || c = '-'

/-- Model of `.replace(/[^\w.\-]+/g, "_")`: each maximal run of disallowed characters
becomes a single underscore.  The Boolean flag records whether the previous
character belonged to such a run. -/
def sanitizeGo : List Char → Bool → List Char
  | [], _ => []
  | c :: rest, prevBad =>
    if isWordDotDash c then c :: sanitizeGo rest false
    else if prevBad then sanitizeGo rest true
    else '_' :: sanitizeGo rest true

/-- Model of `.replace(/[^\w.\-]+/g, "_")` over a whole name. -/
def sanitizeName (l : List Char) : List Char := sanitizeGo l false

/-- The filename resolution of `downloadUrlToTemp` (src/convert.ts lines
381-396) for a response with no `Content-Disposition` header (with that
header absent, `extFromUrlOrDisposition` reduces to `extname` of the URL
path, and `baseName` to the path's basename): `decodeURIComponent` is the
identity on names containing no percent sign, which covers every name
instantiated here. -/
def resolveDownloadName (pathname : String) (ct : Option String) : String :=
  let extByCT := ctExt ct
  let extByURL := if extnameS pathname = "" then none else some (lowerS (extnameS pathname))
  let ext := match extByURL with
    | some e => e
    | none => match extByCT with
      | some e => e
      | none => ""
  let baseName := if basenameS pathname = "" then "download" else basenameS pathname
  let safeBase0 := String.mk (sanitizeName baseName.data)
  let safeBase := if safeBase0 = "" then "download" else safeBase0
  if ext ≠ "" then
    (if endsWithL safeBase.data ext.data then safeBase else safeBase ++ ext)
  else safeBase

/-- C3. Claimed: a fetched resource that is a ZIP archive (extension
`.zip`, or Content-Type `application/zip` / `application/x-zip-compressed`)
gets back a ZIP stream of converted PDFs.  In the code the ZIP branch of
`/convert/url` is commented out (src/server.ts lines 363-405), so every such
resource falls through to the 415 "Unsupported remote type" response — even
though that very message still lists `zip` among the allowed types
(line 408).  This theorem evaluates the handler at the claim's inputs. -/
theorem url_zip_resource_gets_415 :
    (∀ K bytes, urlHandler K bytes ".zip" (some "application/zip") = .error 415) ∧
    (∀ K bytes, urlHandler K bytes ".zip" (some "application/x-zip-compressed") = .error 415) ∧
    (∀ K bytes, urlHandler K bytes ".zip" none = .error 415) := by
  refine ⟨fun K bytes => ?_, fun K bytes => ?_, fun K bytes => ?_⟩ <;>
  · rw [urlHandler.eq_def]
    rw [show urlDispatch ".zip" _ = UrlTag.unsupported from by decide]

/-- C6 counterexample. The claim says the extension has priority and
the Content-Type table is consulted only when the extension is absent or
unrecognized.  But each branch of the dispatch chain tests
`ext === e || guessExtFromContentType(ct) === e` in the fixed order
pdf, txt, docx, rtf, html, so a recognized Content-Type of an earlier
format overrides a supported extension of a later one: a resource fetched
from `/a.rtf` with `Content-Type: application/pdf` resolves to filename
`a.rtf`, extension `.rtf`, yet is dispatched to the pdf pass-through, not
the rtf pipeline. -/
theorem url_ext_priority_counterexample :
    resolveDownloadName "/a.rtf" (some "application/pdf") = "a.rtf" ∧
    serverUrlExt "a.rtf" = ".rtf" ∧
    urlDispatch (serverUrlExt "a.rtf") (some "application/pdf") = UrlTag.pdf ∧
    UrlTag.pdf ≠ UrlTag.rtf := by
  refine ⟨by decide, by decide, by decide, by decide⟩

/-- The format tag the spec associates with each resolved extension
(refinement-side definition, following the claim's words). -/
def specExtTag (ext : String) : UrlTag :=
  if ext = ".pdf" then .pdf
  else if ext = ".txt" then .txt
  else if ext = ".docx" then .docx
  else if ext = ".rtf" then .rtf
  else if ext = ".html" ∨ ext = ".htm" then .html
  else .unsupported

/-- C6 amended. When the Content-Type is absent or not recognized by
the table, the dispatched pipeline is exactly the one named by the resolved
extension.  (When both the extension and the Content-Type denote supported
formats, the chain instead picks whichever format comes first in the order
pdf, txt, docx, rtf, html — see the counterexample.) -/
theorem url_dispatch_follows_ext_when_ct_unrecognized (ext : String)
    (ct : Option String) (hct : ctExt ct = none) :
    urlDispatch ext ct = specExtTag ext := by
  unfold urlDispatch specExtTag
  rw [hct]
  simp

/-- Witness for `url_dispatch_follows_ext_when_ct_unrecognized`. -/
theorem url_dispatch_follows_ext_witness :
    ctExt (some "application/octet-stream") = none ∧
      urlDispatch ".rtf" (some "application/octet-stream") = specExtTag ".rtf" :=
  ⟨by decide,
    url_dispatch_follows_ext_when_ct_unrecognized ".rtf"
      (some "application/octet-stream") (by decide)⟩

/-- C8 counterexample. The claim says a resource whose resolved
filename ends in `.pdf` is streamed back unchanged.  A response with no
Content-Type fetched from a URL whose path basename is the dotfile `.pdf`
resolves to the filename `.pdf`, which ends in `.pdf`; but Node's `extname`
gives a dotfile no extension, so the dispatch finds neither a `.pdf`
extension nor a pdf Content-Type and answers 415 instead of streaming the
bytes back. -/
theorem url_pdf_passthrough_counterexample :
    resolveDownloadName "/.pdf" none = ".pdf" ∧
    endsWithL ".pdf".data ".pdf".data = true ∧
    urlHandler ⟨fun _ => some [], fun _ => some [], fun _ => some [],
      fun _ => some []⟩ [7] (serverUrlExt ".pdf") none = .error 415 ∧
    (Except.error 415 : Except Nat (List Nat)) ≠ .ok [7] := by
  refine ⟨by decide, by decide, rfl, by simp⟩

/-- C8 amended. For every fetched resource whose Content-Type maps to
`.pdf` in the table, or whose resolved filename has extension `.pdf` in the
`path.extname` sense (a `.pdf` suffix with a non-empty base), `/convert/url`
streams back exactly the downloaded bytes, for every choice of conversion
adapters — no conversion step touches them. -/
theorem url_pdf_passthrough (K : UrlConvs) (bytes : List Nat)
    (filename : String) (ct : Option String)
    (h : serverUrlExt filename = ".pdf" ∨ ctExt ct = some ".pdf") :
    urlHandler K bytes (serverUrlExt filename) ct = .ok bytes := by
  have hd : urlDispatch (serverUrlExt filename) ct = .pdf := by
    unfold urlDispatch
    rcases h with h | h <;> simp [h]
  rw [urlHandler.eq_def, hd]

/-- Witness for `url_pdf_passthrough`. -/
theorem url_pdf_passthrough_witness :
    (serverUrlExt "report.pdf" = ".pdf" ∨
      ctExt (none : Option String) = some ".pdf") ∧
    urlHandler ⟨fun _ => some [], fun _ => some [], fun _ => some [],
      fun _ => some []⟩ [1, 2, 3] (serverUrlExt "report.pdf") none =
        .ok [1, 2, 3] :=
  ⟨Or.inl (by decide),
    url_pdf_passthrough _ [1, 2, 3] "report.pdf" none (Or.inl (by decide))⟩

/-! Section: The ZIP batch (app.post('/convert/zip'), src/server.ts lines 221-265)

The per-entry conversions (txtToPdf, mammoth/unrtf/wkhtmltopdf pipelines)
are abstracted as functions (bytes, basename) → pdf bytes, `none` meaning
the adapter throws, which aborts the whole batch.  The output collection is
a JS `Map`: `set` on an existing key replaces its value in place, otherwise
appends the pair. -/

/-- JS `Map.prototype.set` on an association list. -/
def mapSet (m : List (String × List Nat)) (k : String) (v : List Nat) :
    List (String × List Nat) :=
  if m.any (fun e => e.1 == k) then
    m.map (fun e => if e.1 == k then (k, v) else e)
  else m ++ [(k, v)]

/-- The four per-entry conversion pipelines of the batch loop. -/
structure ZipConvs where
  txt : List Nat → String → Option (List Nat)
  docx : List Nat → String → Option (List Nat)
  rtf : List Nat → String → Option (List Nat)
  html : List Nat → String → Option (List Nat)

/-- Model of `path.replace(/\.txt$/i, ".pdf")` and friends: case-insensitive suffix
replaced by `.pdf` (a no-op when the suffix does not match). -/
def replaceSuffPdf (p : String) (suf : String) : String :=
  if endsWithL (lowerS p).data suf.data then
    String.mk (p.data.take (p.data.length - suf.data.length)) ++ ".pdf"
  else p

/-- Model of `path.replace(/\.(html|htm)$/i, ".pdf")`: the alternation tries `html`
first. -/
def replaceHtmlPdf (p : String) : String :=
  if endsWithL (lowerS p).data ".html".data then
    String.mk (p.data.take (p.data.length - 5)) ++ ".pdf"
  else if endsWithL (lowerS p).data ".htm".data then
    String.mk (p.data.take (p.data.length - 4)) ++ ".pdf"
  else p

/-- Model of `extname(path).toLowerCase()` (src/server.ts line 233). -/
def entryExt (p : String) : String := lowerS (extnameS p)

/-- The extensions the batch loop converts. -/
def supportedExt (e : String) : Bool :=
  e == ".txt" || e == ".docx" || e == ".rtf" || e == ".html" || e == ".htm"

/-- The adapter invocation the batch loop performs for one entry (`none`
when the entry's extension is unsupported). -/
def convEntry (K : ZipConvs) (p : String) (d : List Nat) : Option (List Nat) :=
  let e := entryExt p
  if e = ".txt" then K.txt d (basenameS p)
  else if e = ".docx" then K.docx d (basenameS p)
  else if e = ".rtf" then K.rtf d (basenameS p)
  else if e = ".html" ∨ e = ".htm" then K.html d (basenameS p)
  else none

/-- The output path of a converted entry. -/
def outPath (p : String) : String :=
  let e := entryExt p
  if e = ".txt" then replaceSuffPdf p ".txt"
  else if e = ".docx" then replaceSuffPdf p ".docx"
  else if e = ".rtf" then replaceSuffPdf p ".rtf"
  else if e = ".html" ∨ e = ".htm" then replaceHtmlPdf p
  else p

/-- The batch loop (src/server.ts lines 232-258): entries in archive order;
a supported entry is converted and `out.set` with its rewritten path; an
unsupported entry is skipped ("ignore others to keep output ZIP PDF-only");
an adapter throw aborts the whole batch (`none`). -/
def runBatch (K : ZipConvs) :
    List (String × List Nat) → List (String × List Nat) →
      Option (List (String × List Nat))
  | [], out => some out
  | (p, d) :: rest, out =>
    let e := entryExt p
    if e = ".txt" then
      match K.txt d (basenameS p) with
      | some b => runBatch K rest (mapSet out (replaceSuffPdf p ".txt") b)
      | none => none
    else if e = ".docx" then
      match K.docx d (basenameS p) with
      | some b => runBatch K rest (mapSet out (replaceSuffPdf p ".docx") b)
      | none => none
    else if e = ".rtf" then
      match K.rtf d (basenameS p) with
      | some b => runBatch K rest (mapSet out (replaceSuffPdf p ".rtf") b)
      | none => none
    else if e = ".html" ∨ e = ".htm" then
      match K.html d (basenameS p) with
      | some b => runBatch K rest (mapSet out (replaceHtmlPdf p) b)
      | none => none
    else runBatch K rest out

/-! Section: Properties of the batch loop -/

theorem bool_eq_false {b : Bool} (h : ¬ b = true) : b = false := by
  cases b
  · rfl
  · exact absurd rfl h

theorem keys_mapSet_update (m : List (String × List Nat)) (k : String)
    (v : List Nat) (h : m.any (fun e => e.1 == k) = true) :
    (mapSet m k v).map Prod.fst = m.map Prod.fst := by
  unfold mapSet
  rw [if_pos h, List.map_map]
  apply List.map_congr_left
  intro e _
  by_cases hk : e.1 = k <;> simp [Function.comp_apply, hk]

theorem keys_mapSet_append (m : List (String × List Nat)) (k : String)
    (v : List Nat) (h : m.any (fun e => e.1 == k) = false) :
    (mapSet m k v).map Prod.fst = m.map Prod.fst ++ [k] := by
  unfold mapSet
  rw [if_neg (by simp [h])]
  simp

theorem not_mem_keys_of_any_false (m : List (String × List Nat)) (k : String)
    (h : m.any (fun e => e.1 == k) = false) : k ∉ m.map Prod.fst := by
  intro hmem
  obtain ⟨e, he, heq⟩ := List.mem_map.1 hmem
  have := List.any_eq_false.1 h e he
  simp [heq] at this

theorem mem_keys_mapSet (m : List (String × List Nat)) (k x : String)
    (v : List Nat) :
    x ∈ (mapSet m k v).map Prod.fst ↔ x ∈ m.map Prod.fst ∨ x = k := by
  by_cases hb : m.any (fun e => e.1 == k) = true
  · rw [keys_mapSet_update m k v hb]
    have hk : k ∈ m.map Prod.fst := by
      obtain ⟨e, he, heq⟩ := List.any_eq_true.1 hb
      exact List.mem_map.2 ⟨e, he, eq_of_beq heq⟩
    constructor
    · exact Or.inl
    · rintro (hm | rfl)
      · exact hm
      · exact hk
  · rw [keys_mapSet_append m k v (bool_eq_false hb)]
    simp

theorem nodup_keys_mapSet (m : List (String × List Nat)) (k : String)
    (v : List Nat) (h : (m.map Prod.fst).Nodup) :
    ((mapSet m k v).map Prod.fst).Nodup := by
  by_cases hb : m.any (fun e => e.1 == k) = true
  · rw [keys_mapSet_update m k v hb]
    exact h
  · have hb' : m.any (fun e => e.1 == k) = false := bool_eq_false hb
    rw [keys_mapSet_append m k v hb']
    have hk := not_mem_keys_of_any_false m k hb'
    simp [List.nodup_append, h, hk]

theorem supported_cases (e : String) (h : supportedExt e = true) :
    e = ".txt" ∨ e = ".docx" ∨ e = ".rtf" ∨ e = ".html" ∨ e = ".htm" := by
  simp [supportedExt] at h
  tauto

theorem unsupported_cases (e : String) (h : supportedExt e = false) :
    e ≠ ".txt" ∧ e ≠ ".docx" ∧ e ≠ ".rtf" ∧ e ≠ ".html" ∧ e ≠ ".htm" := by
  simp [supportedExt] at h
  tauto

theorem runBatch_cons_supported (K : ZipConvs) (p : String) (d : List Nat)
    (rest : List (String × List Nat)) (out : List (String × List Nat))
    (h : supportedExt (entryExt p) = true) :
    runBatch K ((p, d) :: rest) out =
      match convEntry K p d with
      | some b => runBatch K rest (mapSet out (outPath p) b)
      | none => none := by
  rcases supported_cases _ h with h1 | h1 | h1 | h1 | h1 <;>
    simp [runBatch, convEntry, outPath, h1]

theorem runBatch_cons_unsupported (K : ZipConvs) (p : String) (d : List Nat)
    (rest : List (String × List Nat)) (out : List (String × List Nat))
    (h : supportedExt (entryExt p) = false) :
    runBatch K ((p, d) :: rest) out = runBatch K rest out := by
  obtain ⟨h1, h2, h3, h4, h5⟩ := unsupported_cases _ h
  simp [runBatch, h1, h2, h3, h4, h5]

theorem runBatch_spec (K : ZipConvs) (entries : List (String × List Nat)) :
    ∀ acc, (∀ pd ∈ entries, supportedExt (entryExt pd.1) = true →
        (convEntry K pd.1 pd.2).isSome = true) →
      (acc.map Prod.fst).Nodup →
      ∃ out, runBatch K entries acc = some out ∧
        (out.map Prod.fst).Nodup ∧
        (∀ x, x ∈ out.map Prod.fst ↔ x ∈ acc.map Prod.fst ∨
          ∃ pd ∈ entries, supportedExt (entryExt pd.1) = true ∧
            x = outPath pd.1) := by
  induction entries with
  | nil =>
    intro acc _ hnd
    exact ⟨acc, rfl, hnd, fun x => by simp⟩
  | cons pd rest ih =>
    obtain ⟨p, d⟩ := pd
    intro acc hconv hnd
    by_cases hs : supportedExt (entryExt p) = true
    · have hcs : (convEntry K p d).isSome = true :=
        hconv (p, d) (List.mem_cons_self _ _) hs
      obtain ⟨b, hb⟩ : ∃ b, convEntry K p d = some b :=
        Option.isSome_iff_exists.1 hcs
      have hrw := runBatch_cons_supported K p d rest acc hs
      rw [hb] at hrw
      obtain ⟨out, ho1, ho2, ho3⟩ := ih (mapSet acc (outPath p) b)
        (fun q hq hsq => hconv q (List.mem_cons_of_mem _ hq) hsq)
        (nodup_keys_mapSet acc (outPath p) b hnd)
      refine ⟨out, by rw [hrw]; exact ho1, ho2, fun x => ?_⟩
      rw [ho3 x, mem_keys_mapSet]
      constructor
      · rintro ((hm | rfl) | ⟨q, hq, hsq, hxq⟩)
        · exact Or.inl hm
        · exact Or.inr ⟨(p, d), List.mem_cons_self _ _, hs, rfl⟩
        · exact Or.inr ⟨q, List.mem_cons_of_mem _ hq, hsq, hxq⟩
      · rintro (hm | ⟨q, hq, hsq, hxq⟩)
        · exact Or.inl (Or.inl hm)
        · rcases List.mem_cons.1 hq with rfl | hq'
          · exact Or.inl (Or.inr hxq)
          · exact Or.inr ⟨q, hq', hsq, hxq⟩
    · have hs' : supportedExt (entryExt p) = false := bool_eq_false hs
      rw [runBatch_cons_unsupported K p d rest acc hs']
      obtain ⟨out, ho1, ho2, ho3⟩ :=
        ih acc (fun q hq => hconv q (List.mem_cons_of_mem _ hq)) hnd
      refine ⟨out, ho1, ho2, fun x => ?_⟩
      rw [ho3 x]
      constructor
      · rintro (hm | ⟨q, hq, hsq, hxq⟩)
        · exact Or.inl hm
        · exact Or.inr ⟨q, List.mem_cons_of_mem _ hq, hsq, hxq⟩
      · rintro (hm | ⟨q, hq, hsq, hxq⟩)
        · exact Or.inl hm
        · rcases List.mem_cons.1 hq with rfl | hq'
          · exact absurd hsq (by simp [hs'])
          · exact Or.inr ⟨q, hq', hsq, hxq⟩

theorem runBatch_skip_unsupported (K : ZipConvs) (p : String) (d : List Nat)
    (h : supportedExt (entryExt p) = false)
    (pre post : List (String × List Nat)) :
    ∀ acc, runBatch K (pre ++ (p, d) :: post) acc =
      runBatch K (pre ++ post) acc := by
  induction pre with
  | nil => exact fun acc => runBatch_cons_unsupported K p d post acc h
  | cons qe pre ih =>
    intro acc
    obtain ⟨q, e⟩ := qe
    by_cases hq : supportedExt (entryExt q) = true
    · rw [List.cons_append, List.cons_append,
        runBatch_cons_supported K q e _ acc hq,
        runBatch_cons_supported K q e _ acc hq]
      cases convEntry K q e with
      | none => rfl
      | some b => exact ih (mapSet acc (outPath q) b)
    · have hq' : supportedExt (entryExt q) = false := bool_eq_false hq
      rw [List.cons_append, List.cons_append,
        runBatch_cons_unsupported K q e _ acc hq',
        runBatch_cons_unsupported K q e _ acc hq']
      exact ih acc

/-- C2. For every input archive whose supported entries all convert
successfully: the batch succeeds, its output keys are exactly the paths of
the supported input entries with their extension replaced by `.pdf` (each
present exactly once), unsupported entries contribute nothing; and removing
an unsupported entry anywhere in the archive leaves the batch result
unchanged, so an unsupported entry can never make the batch fail. -/
theorem zip_batch_output_spec :
    (∀ (K : ZipConvs) (entries : List (String × List Nat)),
      (∀ pd ∈ entries, supportedExt (entryExt pd.1) = true →
        (convEntry K pd.1 pd.2).isSome = true) →
      ∃ out, runBatch K entries [] = some out ∧
        (out.map Prod.fst).Nodup ∧
        (∀ x, x ∈ out.map Prod.fst ↔
          ∃ pd ∈ entries, supportedExt (entryExt pd.1) = true ∧
            x = outPath pd.1)) ∧
    (∀ (K : ZipConvs) (pre post : List (String × List Nat)) (p : String)
        (d : List Nat) (acc : List (String × List Nat)),
      supportedExt (entryExt p) = false →
      runBatch K (pre ++ (p, d) :: post) acc = runBatch K (pre ++ post) acc) := by
  constructor
  · intro K entries hconv
    obtain ⟨out, h1, h2, h3⟩ := runBatch_spec K entries [] hconv (by simp)
    exact ⟨out, h1, h2, fun x => by simpa using h3 x⟩
  · intro K pre post p d acc h
    exact runBatch_skip_unsupported K p d h pre post acc

/-- Witness for `zip_batch_output_spec` at the spec's round-trip example:
one `.txt`, one `.docx`, one `.rtf` and one unsupported `.exe` entry. -/
theorem zip_batch_output_spec_witness :
    ∃ out,
      runBatch
        ⟨fun d _ => some d, fun d _ => some d, fun d _ => some d,
          fun d _ => some d⟩
        [("a.txt", [1]), ("b.docx", [2]), ("c.rtf", [3]), ("d.exe", [4])]
        [] = some out ∧
      (out.map Prod.fst).Nodup ∧
      (∀ x, x ∈ out.map Prod.fst ↔
        ∃ pd ∈ [("a.txt", [1]), ("b.docx", [2]), ("c.rtf", [3]),
            ("d.exe", [4])],
          supportedExt (entryExt pd.1) = true ∧ x = outPath pd.1) :=
  zip_batch_output_spec.1 _ _ (by decide)

/-- C9. When two supported entries rewrite to the same output path
(`a.txt` and `a.rtf` both to `a.pdf`), the later entry's `out.set`
overwrites the earlier value and the output archive holds a single entry at
that path, so it has fewer entries than the supported inputs. -/
theorem zip_batch_collision_overwrites (K : ZipConvs) (d1 d2 b1 b2 : List Nat)
    (h1 : K.txt d1 "a.txt" = some b1) (h2 : K.rtf d2 "a.rtf" = some b2) :
    runBatch K [("a.txt", d1), ("a.rtf", d2)] [] = some [("a.pdf", b2)] := by
  have e1 : entryExt "a.txt" = ".txt" := by decide
  have e2 : entryExt "a.rtf" = ".rtf" := by decide
  have r1 : replaceSuffPdf "a.txt" ".txt" = "a.pdf" := by decide
  have r2 : replaceSuffPdf "a.rtf" ".rtf" = "a.pdf" := by decide
  have bn1 : basenameS "a.txt" = "a.txt" := by decide
  have bn2 : basenameS "a.rtf" = "a.rtf" := by decide
  simp [runBatch, e1, e2, bn1, bn2, r1, r2, h1, h2, mapSet]

/-- Witness for `zip_batch_collision_overwrites`. -/
theorem zip_batch_collision_overwrites_witness :
    runBatch
      ⟨fun d _ => some d, fun d _ => some d, fun d _ => some d,
        fun d _ => some d⟩
      [("a.txt", [1]), ("a.rtf", [2])] [] = some [("a.pdf", [2])] :=
  zip_batch_collision_overwrites _ [1] [2] [1] [2] rfl rfl

/-! Section: Upload endpoints (src/server.ts lines 132-265)

A multipart form field is either a `File` (name, declared size, bytes) or a
plain string; `readFormFile` accepts only a `File` instance.  `TextDecoder`
(`file.text()`) and the external renderers are abstract parameters. -/

/-- An uploaded `File`: declared name, size and content bytes. -/
structure FileU where
  name : String
  size : Nat
  bytes : List Nat

/-- A multipart form value (`form.get` returns a `File` or a string). -/
inductive FormVal
  | file (f : FileU)
  | str (s : String)

/-- Model of `readFormFile` (src/convert.ts lines 300-309): 400 unless the field is
a `File` instance. -/
def readFormFileM : Option FormVal → Except Nat FileU
  | some (.file f) => .ok f
  | _ => .error 400

/-- Model of `enforceFileLimit` (src/convert.ts lines 98-104). -/
def enforceFileLimitM (f : FileU) : Except Nat Unit :=
  if MAX_FILE_BYTES < f.size then .error 413 else .ok ()

/-- Model of `enforceStringLimit` (src/convert.ts lines 105-112): `new Blob([text])`
measures the UTF-8 byte length. -/
def enforceStringLimitM (text : String) : Except Nat Unit :=
  if MAX_FILE_BYTES < utf8Length text.data then .error 413 else .ok ()

/-- Handler of `app.post('/api/convert/txt')` (src/server.ts lines 132-146), with the
text adapter abstracted as `conv`. -/
def txtEp (conv : List Nat → String → Option (List Nat))
    (form : Option FormVal) : Except Nat (List Nat) :=
  match readFormFileM form with
  | .error s => .error s
  | .ok f =>
    match enforceFileLimitM f with
    | .error s => .error s
    | .ok _ =>
      let name := if f.name = "" then "document.txt" else f.name
      if endsWithL (lowerS name).data ".txt".data = false then .error 400
      else match conv f.bytes name with
        | some b => .ok b
        | none => .error 500

/-- Handler of `app.post('/api/convert/rtf')` (src/server.ts lines 149-165). -/
def rtfEp (conv : List Nat → String → Option (List Nat))
    (form : Option FormVal) : Except Nat (List Nat) :=
  match readFormFileM form with
  | .error s => .error s
  | .ok f =>
    match enforceFileLimitM f with
    | .error s => .error s
    | .ok _ =>
      let name := if f.name = "" then "document.rtf" else f.name
      if endsWithL (lowerS name).data ".rtf".data = false then .error 400
      else match conv f.bytes name with
        | some b => .ok b
        | none => .error 500

/-- Handler of `app.post('/api/convert/docx')` (src/server.ts lines 168-188). -/
def docxEp (conv : List Nat → String → Option (List Nat))
    (form : Option FormVal) : Except Nat (List Nat) :=
  match readFormFileM form with
  | .error s => .error s
  | .ok f =>
    match enforceFileLimitM f with
    | .error s => .error s
    | .ok _ =>
      let name := if f.name = "" then "document.docx" else f.name
      if endsWithL (lowerS name).data ".docx".data = false then .error 400
      else match conv f.bytes name with
        | some b => .ok b
        | none => .error 500

/-- Handler of `app.post('/convert/zip')` (src/server.ts lines 221-265), with the ZIP
decoder (`unzipSync`) abstracted. -/
def zipEp (unzip : List Nat → List (String × List Nat)) (K : ZipConvs)
    (form : Option FormVal) : Except Nat (List (String × List Nat)) :=
  match readFormFileM form with
  | .error s => .error s
  | .ok f =>
    match enforceFileLimitM f with
    | .error s => .error s
    | .ok _ =>
      let name := if f.name = "" then "archive.zip" else f.name
      if endsWithL (lowerS name).data ".zip".data = false then .error 400
      else match runBatch K (unzip f.bytes) [] with
        | some out => .ok out
        | none => .error 500

/-- The `/<html[\s>]/i` test of `normalizeHtmlWrapper` (src/convert.ts
lines 426-430). -/
def hasHtmlTag : List Char → Bool
  | [] => false
  | c :: rest =>
    (c = '<' && (match rest with
      | c1 :: c2 :: c3 :: c4 :: c5 :: _ =>
        Char.toLower c1 = 'h' && Char.toLower c2 = 't' &&
        Char.toLower c3 = 'm' && Char.toLower c4 = 'l' &&
        (isWS c5 || c5 = '>')
      | _ => false)) || hasHtmlTag rest

/-- Model of `normalizeHtmlWrapper` (src/convert.ts lines 426-430). -/
def normalizeHtmlWrapperS (s : String) : String :=
  if hasHtmlTag s.data then s
  else
    "<!doctype html><html><head><meta charset=\"utf-8\"></head><body>" ++
      s ++ "</body></html>"

/-- The `/\.(html?|xhtml)$/i` filename test of the html endpoint. -/
def htmlNameOk (name : String) : Bool :=
  endsWithL (lowerS name).data ".html".data ||
  endsWithL (lowerS name).data ".htm".data ||
  endsWithL (lowerS name).data ".xhtml".data

/-- Handler of `app.post('/api/convert/html')` (src/server.ts lines 192-218): a `File`
in the `file` field wins; only otherwise is the `html` string field used;
`decode` stands for `file.text()` and `render` for the wkhtmltopdf call on
the wrapped document. -/
def htmlEp (decode : List Nat → String) (render : String → Option (List Nat))
    (fileField htmlField : Option FormVal) : Except Nat (List Nat) :=
  match fileField with
  | some (.file f) =>
    match enforceFileLimitM f with
    | .error s => .error s
    | .ok _ =>
      let name := if f.name = "" then "document.html" else f.name
      if htmlNameOk name = false then .error 400
      else match render (normalizeHtmlWrapperS (decode f.bytes)) with
        | some b => .ok b
        | none => .error 500
  | _ =>
    match htmlField with
    | some (.str s) =>
      match enforceStringLimitM s with
      | .error c => .error c
      | .ok _ =>
        match render (normalizeHtmlWrapperS s) with
        | some b => .ok b
        | none => .error 500
    | _ => .error 400

/-- C4. On every conversion endpoint, a multipart upload whose declared
size exceeds `MAX_FILE_BYTES` is answered with 413, for every choice of the
conversion adapters — the size guard runs before any adapter, so no
conversion work is performed. -/
theorem oversized_upload_413 :
    (∀ conv form f, form = some (FormVal.file f) →
      MAX_FILE_BYTES < f.size → txtEp conv form = .error 413) ∧
    (∀ conv form f, form = some (FormVal.file f) →
      MAX_FILE_BYTES < f.size → rtfEp conv form = .error 413) ∧
    (∀ conv form f, form = some (FormVal.file f) →
      MAX_FILE_BYTES < f.size → docxEp conv form = .error 413) ∧
    (∀ decode render fileField htmlField f,
      fileField = some (FormVal.file f) → MAX_FILE_BYTES < f.size →
      htmlEp decode render fileField htmlField = .error 413) ∧
    (∀ unzip K form f, form = some (FormVal.file f) →
      MAX_FILE_BYTES < f.size → zipEp unzip K form = .error 413) := by
  refine ⟨?_, ?_, ?_, ?_, ?_⟩
  · intro conv form f hf hs
    subst hf
    simp [txtEp, readFormFileM, enforceFileLimitM, hs]
  · intro conv form f hf hs
    subst hf
    simp [rtfEp, readFormFileM, enforceFileLimitM, hs]
  · intro conv form f hf hs
    subst hf
    simp [docxEp, readFormFileM, enforceFileLimitM, hs]
  · intro decode render fileField htmlField f hf hs
    subst hf
    simp [htmlEp, enforceFileLimitM, hs]
  · intro unzip K form f hf hs
    subst hf
    simp [zipEp, readFormFileM, enforceFileLimitM, hs]

/-- Witness for `oversized_upload_413` at a 50 MiB + 1 byte upload. -/
theorem oversized_upload_413_witness :
    MAX_FILE_BYTES < 52428801 ∧
    txtEp (fun _ _ => some []) (some (.file ⟨"a.txt", 52428801, []⟩)) =
      .error 413 ∧
    rtfEp (fun _ _ => some []) (some (.file ⟨"a.rtf", 52428801, []⟩)) =
      .error 413 ∧
    docxEp (fun _ _ => some []) (some (.file ⟨"a.docx", 52428801, []⟩)) =
      .error 413 ∧
    htmlEp (fun _ => "") (fun _ => some [])
      (some (.file ⟨"a.html", 52428801, []⟩)) none = .error 413 ∧
    zipEp (fun _ => []) ⟨fun _ _ => some [], fun _ _ => some [],
      fun _ _ => some [], fun _ _ => some []⟩
      (some (.file ⟨"a.zip", 52428801, []⟩)) = .error 413 := by
  have h : MAX_FILE_BYTES < 52428801 := by norm_num [MAX_FILE_BYTES]
  exact ⟨h,
    oversized_upload_413.1 _ _ _ rfl h,
    oversized_upload_413.2.1 _ _ _ rfl h,
    oversized_upload_413.2.2.1 _ _ _ rfl h,
    oversized_upload_413.2.2.2.1 _ _ _ _ _ rfl h,
    oversized_upload_413.2.2.2.2 _ _ _ _ rfl h⟩

/-- C10. When the `/api/convert/html` form holds a `File` in its `file`
field, the response is computed from that file alone: the `html` string
field is never consulted, so two requests differing only there coincide. -/
theorem html_file_field_wins (decode : List Nat → String)
    (render : String → Option (List Nat)) (f : FileU)
    (h1 h2 : Option FormVal) :
    htmlEp decode render (some (.file f)) h1 =
      htmlEp decode render (some (.file f)) h2 := rfl

/-! Section: The download loop of `downloadUrlToTemp`
(src/convert.ts lines 408-423) -/

/-- Outcome of the download loop: the response seen by the caller (the
resolved temp file's bytes, or the HTTP error raised), together with the
bytes actually written to the temp file on disk. -/
structure DlResult where
  resp : Except Nat (List Nat)
  fileBytes : List Nat

/-- The read/write loop: `received` accumulates each chunk's byte length
before the limit test, and the test runs before the chunk is written; on
violation the reader is cancelled, the writer closed, and 413 thrown. -/
def dlLoop (maxB : Nat) : List (List Nat) → List Nat → DlResult
  | [], written => ⟨.ok written, written⟩
  | chunk :: rest, written =>
    let received := written.length + chunk.length
    if maxB < received then ⟨.error 413, written⟩
    else dlLoop maxB rest (written ++ chunk)

theorem dlLoop_over (maxB : Nat) (chunks : List (List Nat)) :
    ∀ written, written.length ≤ maxB →
      maxB < written.length + (chunks.map List.length).sum →
      (dlLoop maxB chunks written).resp = .error 413 ∧
      (dlLoop maxB chunks written).fileBytes.length ≤ maxB ∧
      ∃ k, (dlLoop maxB chunks written).fileBytes =
        written ++ (chunks.take k).flatten := by
  induction chunks with
  | nil =>
    intro written h1 h2
    exfalso
    simp at h2
    omega
  | cons chunk rest ih =>
    intro written h1 h2
    by_cases hover : maxB < written.length + chunk.length
    · refine ⟨?_, ?_, 0, ?_⟩ <;> simp [dlLoop, hover, h1]
    · have hrw : dlLoop maxB (chunk :: rest) written =
          dlLoop maxB rest (written ++ chunk) := by
        simp [dlLoop, hover]
      have hnext : (written ++ chunk).length ≤ maxB := by
        simp [List.length_append]
        omega
      have h2' : maxB < (written ++ chunk).length +
          (rest.map List.length).sum := by
        simp [List.length_append] at h2 ⊢
        omega
      obtain ⟨r1, r2, k, r3⟩ := ih (written ++ chunk) hnext h2'
      rw [hrw]
      refine ⟨r1, r2, k + 1, ?_⟩
      rw [r3]
      simp

/-- C5. Whenever the total size of the fetched body exceeds the size
ceiling, `downloadUrlToTemp` raises 413 — so the response path never
receives the temp file — the bytes written to disk never exceed the
ceiling (the offending chunk is not written), and the file content is the
concatenation of the chunks accepted before the abort. -/
theorem download_over_limit_aborts (chunks : List (List Nat))
    (h : MAX_FILE_BYTES < (chunks.map List.length).sum) :
    (dlLoop MAX_FILE_BYTES chunks []).resp = .error 413 ∧
    (dlLoop MAX_FILE_BYTES chunks []).fileBytes.length ≤ MAX_FILE_BYTES ∧
    ∃ k, (dlLoop MAX_FILE_BYTES chunks []).fileBytes =
      (chunks.take k).flatten := by
  obtain ⟨r1, r2, k, r3⟩ :=
    dlLoop_over MAX_FILE_BYTES chunks [] (by simp) (by simpa using h)
  exact ⟨r1, r2, k, by simpa using r3⟩

/-- Witness for `download_over_limit_aborts`: a single chunk one byte over
the ceiling. -/
theorem download_over_limit_aborts_witness :
    MAX_FILE_BYTES <
      (([List.replicate (MAX_FILE_BYTES + 1) 0]).map List.length).sum ∧
    (dlLoop MAX_FILE_BYTES [List.replicate (MAX_FILE_BYTES + 1) 0] []).resp =
      .error 413 := by
  have h : MAX_FILE_BYTES <
      (([List.replicate (MAX_FILE_BYTES + 1) 0]).map List.length).sum := by
    simp
  exact ⟨h, (download_over_limit_aborts _ h).1⟩

end Brightline
